import Mathlib

/-!
Verification of the selection/transform and flood-fill core of the
William-Paint raster editor (`claudepaint.py`), via a shallow embedding.

Pixels are RGBA quadruples of naturals (one byte per channel); an image is a
pair of integer dimensions together with a total pixel function on integer
coordinates (out-of-bounds reads are never relied upon, matching Qt's
behaviour of guarding every write by a bounds check).
-/

/-- RGBA pixel value, one channel per byte, as read/written through
`QColor.rgba()` / `setPixelColor` in the source. -/
structure RGBA where
  r : ℕ
  g : ℕ
  b : ℕ
  a : ℕ
deriving DecidableEq, Repr

/-- Fully transparent pixel (`QColor(0, 0, 0, 0)` in the source). -/
def RGBA.clear : RGBA := ⟨0, 0, 0, 0⟩

/-- Integer pixel coordinate, `(x, y)`. -/
abbrev Cell : Type := ℤ × ℤ

/-- Bounds predicate `0 <= x < w and 0 <= y < h`, the guard used throughout
the source before touching a pixel. -/
def InB (w h : ℤ) (c : Cell) : Prop :=
  0 ≤ c.1 ∧ c.1 < w ∧ 0 ≤ c.2 ∧ c.2 < h

instance (w h : ℤ) (c : Cell) : Decidable (InB w h c) := by
  unfold InB; exact inferInstance

/-- Raster image: dimensions plus a total pixel function. -/
structure Image where
  width : ℤ
  height : ℤ
  pix : Cell → RGBA

/-- Bounds check against an image's own dimensions (`QImage.valid`). -/
def Image.InBounds (img : Image) (c : Cell) : Prop :=
  InB img.width img.height c

instance (img : Image) (c : Cell) : Decidable (img.InBounds c) := by
  unfold Image.InBounds; exact inferInstance

/-- Write one pixel; Qt's `setPixelColor` ignores out-of-bounds writes. -/
def Image.setPix (img : Image) (c : Cell) (v : RGBA) : Image :=
  { img with pix := fun d => if d = c ∧ img.InBounds c then v else img.pix d }

theorem Image.setPix_width (img : Image) (c : Cell) (v : RGBA) :
    (img.setPix c v).width = img.width := rfl

theorem Image.setPix_height (img : Image) (c : Cell) (v : RGBA) :
    (img.setPix c v).height = img.height := rfl

theorem Image.setPix_pix (img : Image) (c : Cell) (v : RGBA) (d : Cell) :
    (img.setPix c v).pix d
      = if d = c ∧ img.InBounds c then v else img.pix d := rfl

/-- Finite set of all in-bounds coordinates of a `w × h` grid. -/
def grid (w h : ℤ) : Finset Cell :=
  Finset.Ico 0 w ×ˢ Finset.Ico 0 h

theorem mem_grid (w h : ℤ) (c : Cell) : c ∈ grid w h ↔ InB w h c := by
  cases c with
  | mk x y =>
    rw [grid, Finset.mem_product]
    simp only [Finset.mem_Ico, InB]
    tauto

/-- 4-connected neighbourhood, in the enumeration order of the source:
`(cx - 1, cy), (cx + 1, cy), (cx, cy - 1), (cx, cy + 1)`. -/
def neighbors (c : Cell) : List Cell :=
  [(c.1 - 1, c.2), (c.1 + 1, c.2), (c.1, c.2 - 1), (c.1, c.2 + 1)]

theorem neighbors_nodup (c : Cell) : (neighbors c).Nodup := by
  cases c with
  | mk x y =>
    simp [neighbors, List.nodup_cons, Prod.ext_iff]
    omega

theorem neighbors_ne_self (c n : Cell) (hn : n ∈ neighbors c) : n ≠ c := by
  cases c with
  | mk x y =>
    simp only [neighbors, List.mem_cons, List.mem_singleton, List.not_mem_nil,
      or_false] at hn
    rcases hn with h | h | h | h <;> subst h <;> simp [Prod.ext_iff]

/-- Neighbours that pass the enqueue guard of the BFS loop: in bounds and not
yet in the visited set.  (The four neighbours of a cell are pairwise
distinct, so checking each against the visited set as it stood at the start
of the step is the same as the source's sequential insert-and-check.) -/
def newCells (w h : ℤ) (visited : Finset Cell) (c : Cell) : List Cell :=
  (neighbors c).filter fun n => decide (InB w h n ∧ n ∉ visited)

theorem mem_newCells (w h : ℤ) (visited : Finset Cell) (c n : Cell) :
    n ∈ newCells w h visited c
      ↔ n ∈ neighbors c ∧ InB w h n ∧ n ∉ visited := by
  simp [newCells, List.mem_filter]

theorem newCells_nodup (w h : ℤ) (visited : Finset Cell) (c : Cell) :
    (newCells w h visited c).Nodup :=
  (neighbors_nodup c).filter _

theorem newCells_card (w h : ℤ) (visited : Finset Cell) (c : Cell) :
    ((grid w h) \ (visited ∪ (newCells w h visited c).toFinset)).card
        = ((grid w h) \ visited).card - (newCells w h visited c).length
      ∧ (newCells w h visited c).length ≤ ((grid w h) \ visited).card := by
  have hsub : (newCells w h visited c).toFinset ⊆ (grid w h) \ visited := by
    intro n hn
    rw [List.mem_toFinset, mem_newCells] at hn
    rw [Finset.mem_sdiff, mem_grid]
    exact ⟨hn.2.1, hn.2.2⟩
  have hcard : (newCells w h visited c).toFinset.card
      = (newCells w h visited c).length :=
    List.toFinset_card_of_nodup (newCells_nodup w h visited c)
  have hset : (grid w h) \ (visited ∪ (newCells w h visited c).toFinset)
      = ((grid w h) \ visited) \ (newCells w h visited c).toFinset := by
    ext d
    simp only [Finset.mem_sdiff, Finset.mem_union]
    tauto
  constructor
  · rw [hset, Finset.card_sdiff hsub, hcard]
  · rw [← hcard]
    exact Finset.card_le_card hsub

/-- BFS flood-fill loop of `FillTool._flood_fill` (shared verbatim by
`AlphaBrushTool._alpha_flood_fill`): pop a cell, skip it unless its current
colour equals the target snapshot, otherwise write the fill colour and
enqueue the in-bounds unvisited neighbours.  The second component is the
sequence of cells written, in visit order (ghost instrumentation). -/
def floodLoop (w h : ℤ) (target fill : RGBA) (img : Image)
    (queue : List Cell) (visited : Finset Cell) : Image × List Cell :=
  match queue with
  | [] => (img, [])
  | c :: rest =>
    if img.pix c = target then
      let r := floodLoop w h target fill (img.setPix c fill)
        (rest ++ newCells w h visited c)
        (visited ∪ (newCells w h visited c).toFinset)
      (r.1, c :: r.2)
    else
      floodLoop w h target fill img rest visited
termination_by 2 * ((grid w h) \ visited).card + queue.length
decreasing_by
  · have h1 := (newCells_card w h visited c).1
    have h2 := (newCells_card w h visited c).2
    simp only [List.length_append, List.length_cons]
    omega
  · simp only [List.length_cons]
    omega

/-- Flood fill as invoked by `FillTool.mouse_press`: target colour snapshot
taken once from the seed pixel, queue and visited set seeded with the seed
cell, bounds passed in as the image's dimensions. -/
def floodFill (img : Image) (seed : Cell) (fill : RGBA) : Image :=
  (floodLoop img.width img.height (img.pix seed) fill img [seed] {seed}).1

/-- Visit order of the flood fill (the cells written, in order). -/
def floodVisits (img : Image) (seed : Cell) (fill : RGBA) : List Cell :=
  (floodLoop img.width img.height (img.pix seed) fill img [seed] {seed}).2

/-- One step of flood-fill connectivity over the original image: both cells
are in bounds with the target colour, and they are 4-adjacent. -/
def FloodStep (img0 : Image) (t : RGBA) (a b : Cell) : Prop :=
  img0.InBounds a ∧ img0.pix a = t ∧ img0.InBounds b ∧ img0.pix b = t
    ∧ b ∈ neighbors a

/-- The 4-connected component of the seed among cells whose original colour
equals the target. -/
def Reach (img0 : Image) (t : RGBA) (seed c : Cell) : Prop :=
  Relation.ReflTransGen (FloodStep img0 t) seed c

theorem Reach.pix_eq (img0 : Image) (t : RGBA) (seed c : Cell)
    (hseed : img0.pix seed = t) (h : Reach img0 t seed c) : img0.pix c = t := by
  induction h with
  | refl => exact hseed
  | tail _ hstep _ => exact hstep.2.2.2.1

theorem Reach.inBounds (img0 : Image) (t : RGBA) (seed c : Cell)
    (hseed : img0.InBounds seed) (h : Reach img0 t seed c) :
    img0.InBounds c := by
  induction h with
  | refl => exact hseed
  | tail _ hstep _ => exact hstep.2.2.1

/-- Invariant of the BFS loop, relative to the pristine image `img0`, the
target colour `t` (the seed's original colour), the fill colour `f` and the
seed cell. -/
structure FloodInv (img0 : Image) (t f : RGBA) (seed : Cell)
    (img : Image) (queue : List Cell) (visited : Finset Cell) : Prop where
  nodup : queue.Nodup
  qsub : ∀ c ∈ queue, c ∈ visited
  vbound : ∀ c ∈ visited, img0.InBounds c
  sound : ∀ c ∈ visited, img0.pix c = t → Reach img0 t seed c
  pixeq : ∀ c, img.pix c
    = if c ∈ visited ∧ c ∉ queue ∧ img0.pix c = t then f else img0.pix c
  frontier : ∀ c ∈ visited, c ∉ queue → img0.pix c = t →
    ∀ n ∈ neighbors c, img0.InBounds n → n ∈ visited
  seedv : seed ∈ visited
  dims : img.width = img0.width ∧ img.height = img0.height

/-- With an empty queue the invariant forces every reachable cell to be in
the visited set (completeness of the traversal). -/
theorem FloodInv.reach_mem_visited (img0 : Image) (t f : RGBA) (seed : Cell)
    (img : Image) (visited : Finset Cell)
    (inv : FloodInv img0 t f seed img [] visited)
    (c : Cell) (h : Reach img0 t seed c) : c ∈ visited := by
  induction h with
  | refl => exact inv.seedv
  | tail hr hstep ih =>
    exact inv.frontier _ ih (List.not_mem_nil _) hstep.2.1 _ hstep.2.2.2.2
      hstep.2.2.1

/-- Invariant preservation for the matching branch of the loop. -/
theorem floodInv_step_match (img0 : Image) (t f : RGBA) (seed : Cell)
    (img : Image) (c : Cell) (rest : List Cell) (visited : Finset Cell)
    (inv : FloodInv img0 t f seed img (c :: rest) visited)
    (hm : img.pix c = t) :
    img0.pix c = t ∧ Reach img0 t seed c ∧
      FloodInv img0 t f seed (img.setPix c f)
        (rest ++ newCells img0.width img0.height visited c)
        (visited ∪ (newCells img0.width img0.height visited c).toFinset) := by
  have hcq : c ∈ c :: rest := List.mem_cons_self c rest
  have hcv : c ∈ visited := inv.qsub c hcq
  have hcb : img0.InBounds c := inv.vbound c hcv
  have hc0 : img0.pix c = t := by
    have := inv.pixeq c
    rw [if_neg (by simp [hcq])] at this
    rw [← this, hm]
  have hreach : Reach img0 t seed c := inv.sound c hcv hc0
  have hnotrest : c ∉ rest := (List.nodup_cons.mp inv.nodup).1
  have hnotnew : c ∉ newCells img0.width img0.height visited c := by
    intro hmem
    exact ((mem_newCells _ _ _ _ _).mp hmem).2.2 hcv
  refine ⟨hc0, hreach, ?_⟩
  constructor
  · -- nodup
    refine List.Nodup.append (List.nodup_cons.mp inv.nodup).2
      (newCells_nodup _ _ _ _) ?_
    intro a ha hb
    exact ((mem_newCells _ _ _ _ _).mp hb).2.2 (inv.qsub a (List.mem_cons_of_mem _ ha))
  · -- qsub
    intro d hd
    rcases List.mem_append.mp hd with hd | hd
    · exact Finset.mem_union_left _ (inv.qsub d (List.mem_cons_of_mem _ hd))
    · exact Finset.mem_union_right _ (List.mem_toFinset.mpr hd)
  · -- vbound
    intro d hd
    rcases Finset.mem_union.mp hd with hd | hd
    · exact inv.vbound d hd
    · exact ((mem_newCells _ _ _ _ _).mp (List.mem_toFinset.mp hd)).2.1
  · -- sound
    intro d hd hdt
    rcases Finset.mem_union.mp hd with hd | hd
    · exact inv.sound d hd hdt
    · have hd' := (mem_newCells _ _ _ _ _).mp (List.mem_toFinset.mp hd)
      exact Relation.ReflTransGen.tail hreach
        ⟨hcb, hc0, hd'.2.1, hdt, hd'.1⟩
  · -- pixeq
    intro d
    rw [Image.setPix_pix]
    have hcbi : img.InBounds c := by
      show InB img.width img.height c
      rw [inv.dims.1, inv.dims.2]
      exact hcb
    by_cases hdc : d = c
    · subst hdc
      rw [if_pos ⟨rfl, hcbi⟩]
      have hq' : d ∉ rest ++ newCells img0.width img0.height visited d := by
        intro hmem
        rcases List.mem_append.mp hmem with hmem | hmem
        · exact hnotrest hmem
        · exact hnotnew hmem
      rw [if_pos ⟨Finset.mem_union_left _ hcv, hq', hc0⟩]
    · rw [if_neg (fun hh => hdc hh.1)]
      rw [inv.pixeq d]
      have hNv : d ∈ newCells img0.width img0.height visited c → d ∉ visited :=
        fun hm => ((mem_newCells _ _ _ _ _).mp hm).2.2
      refine if_congr ?_ rfl rfl
      constructor
      · rintro ⟨h1, h2, h3⟩
        refine ⟨Finset.mem_union_left _ h1, ?_, h3⟩
        intro hmem
        rcases List.mem_append.mp hmem with hmem | hmem
        · exact h2 (List.mem_cons_of_mem _ hmem)
        · exact hNv hmem h1
      · rintro ⟨h1, h2, h3⟩
        have h2r : d ∉ rest := fun hm => h2 (List.mem_append.mpr (Or.inl hm))
        have h2n : d ∉ newCells img0.width img0.height visited c :=
          fun hm => h2 (List.mem_append.mpr (Or.inr hm))
        refine ⟨?_, ?_, h3⟩
        · rcases Finset.mem_union.mp h1 with h1 | h1
          · exact h1
          · exact absurd (List.mem_toFinset.mp h1) h2n
        · intro hmem
          rcases List.mem_cons.mp hmem with hmem | hmem
          · exact hdc hmem
          · exact h2r hmem
  · -- frontier
    intro d hd hdq hdt n hn hnb
    by_cases hdc : d = c
    · subst hdc
      rcases (em (n ∈ visited)) with hnv | hnv
      · exact Finset.mem_union_left _ hnv
      · refine Finset.mem_union_right _ (List.mem_toFinset.mpr ?_)
        exact (mem_newCells _ _ _ _ _).mpr ⟨hn, hnb, hnv⟩
    · rcases Finset.mem_union.mp hd with hd | hd
      · have hdq' : d ∉ c :: rest := by
          intro hmem
          rcases List.mem_cons.mp hmem with h | h
          · exact hdc h
          · exact hdq (List.mem_append.mpr (Or.inl h))
        exact Finset.mem_union_left _ (inv.frontier d hd hdq' hdt n hn hnb)
      · exact absurd (List.mem_append.mpr
          (Or.inr (List.mem_toFinset.mp hd))) hdq
  · -- seedv
    exact Finset.mem_union_left _ inv.seedv
  · -- dims
    exact ⟨inv.dims.1, inv.dims.2⟩

/-- Invariant preservation for the skipping branch of the loop. -/
theorem floodInv_step_skip (img0 : Image) (t f : RGBA) (seed : Cell)
    (img : Image) (c : Cell) (rest : List Cell) (visited : Finset Cell)
    (inv : FloodInv img0 t f seed img (c :: rest) visited)
    (hm : img.pix c ≠ t) :
    img0.pix c ≠ t ∧ FloodInv img0 t f seed img rest visited := by
  have hcq : c ∈ c :: rest := List.mem_cons_self c rest
  have hcv : c ∈ visited := inv.qsub c hcq
  have hc0 : img0.pix c ≠ t := by
    have := inv.pixeq c
    rw [if_neg (by simp [hcq])] at this
    rw [← this]
    exact hm
  have hnotrest : c ∉ rest := (List.nodup_cons.mp inv.nodup).1
  refine ⟨hc0, ?_⟩
  constructor
  · exact (List.nodup_cons.mp inv.nodup).2
  · exact fun d hd => inv.qsub d (List.mem_cons_of_mem _ hd)
  · exact inv.vbound
  · exact inv.sound
  · intro d
    rw [inv.pixeq d]
    refine if_congr ?_ rfl rfl
    by_cases hdc : d = c
    · subst hdc
      constructor
      · rintro ⟨-, h2, -⟩
        exact absurd hcq h2
      · rintro ⟨-, -, h3⟩
        exact absurd h3 hc0
    · constructor
      · rintro ⟨h1, h2, h3⟩
        exact ⟨h1, fun hm => h2 (List.mem_cons_of_mem _ hm), h3⟩
      · rintro ⟨h1, h2, h3⟩
        refine ⟨h1, ?_, h3⟩
        intro hmem
        rcases List.mem_cons.mp hmem with hmem | hmem
        · exact hdc hmem
        · exact h2 hmem
  · intro d hd hdq hdt n hn hnb
    by_cases hdc : d = c
    · subst hdc
      exact absurd hdt hc0
    · refine inv.frontier d hd ?_ hdt n hn hnb
      intro hmem
      rcases List.mem_cons.mp hmem with h | h
      · exact hdc h
      · exact hdq h
  · exact inv.seedv
  · exact inv.dims

/-- Main loop lemma: from any state satisfying the invariant, the loop
returns the image in which exactly the reachable cells carry the fill
colour, together with a duplicate-free trace of exactly the still-unwritten
reachable cells. -/
theorem floodLoop_spec (img0 : Image) (t f : RGBA) (seed : Cell)
    (hseed : img0.pix seed = t)
    (img : Image) (queue : List Cell) (visited : Finset Cell)
    (inv : FloodInv img0 t f seed img queue visited) :
    (∀ c, (Reach img0 t seed c →
        (floodLoop img0.width img0.height t f img queue visited).1.pix c = f)
      ∧ (¬ Reach img0 t seed c →
        (floodLoop img0.width img0.height t f img queue visited).1.pix c
          = img0.pix c))
    ∧ (floodLoop img0.width img0.height t f img queue visited).1.width
        = img0.width
    ∧ (floodLoop img0.width img0.height t f img queue visited).1.height
        = img0.height
    ∧ (floodLoop img0.width img0.height t f img queue visited).2.Nodup
    ∧ (∀ c, c ∈ (floodLoop img0.width img0.height t f img queue visited).2
        ↔ Reach img0 t seed c ∧ (c ∈ queue ∨ c ∉ visited)) := by
  revert inv
  induction img, queue, visited using floodLoop.induct img0.width img0.height t f with
  | case1 img visited =>
    intro inv
    rw [floodLoop]
    refine ⟨?_, inv.dims.1, inv.dims.2, List.nodup_nil, ?_⟩
    · intro c
      constructor
      · intro hr
        rw [inv.pixeq c, if_pos]
        exact ⟨inv.reach_mem_visited img0 t f seed img visited c hr,
          List.not_mem_nil c, Reach.pix_eq img0 t seed c hseed hr⟩
      · intro hr
        rw [inv.pixeq c, if_neg]
        rintro ⟨h1, -, h3⟩
        exact hr (inv.sound c h1 h3)
    · intro c
      constructor
      · intro hmem
        exact absurd hmem (List.not_mem_nil c)
      · rintro ⟨hr, hmem | hmem⟩
        · exact absurd hmem (List.not_mem_nil c)
        · exact absurd
            (FloodInv.reach_mem_visited img0 t f seed img visited inv c hr) hmem
  | case2 img visited c rest hm ih =>
    intro inv
    obtain ⟨hc0, hreach, inv'⟩ :=
      floodInv_step_match img0 t f seed img c rest visited inv hm
    obtain ⟨ihpix, ihw, ihh, ihnodup, ihmem⟩ := ih inv'
    have hcv : c ∈ visited := inv.qsub c (List.mem_cons_self c rest)
    have hnotrest : c ∉ rest := (List.nodup_cons.mp inv.nodup).1
    have hnotnew : c ∉ newCells img0.width img0.height visited c :=
      fun hmem => ((mem_newCells _ _ _ _ _).mp hmem).2.2 hcv
    rw [floodLoop]
    simp only [hm, if_true]
    refine ⟨ihpix, ihw, ihh, ?_, ?_⟩
    · refine List.nodup_cons.mpr ⟨?_, ihnodup⟩
      intro hmem
      rcases ((ihmem c).mp hmem).2 with hmem | hmem
      · rcases List.mem_append.mp hmem with hmem | hmem
        · exact hnotrest hmem
        · exact hnotnew hmem
      · exact hmem (Finset.mem_union_left _ hcv)
    · intro d
      by_cases hdc : d = c
      · subst hdc
        constructor
        · intro _
          exact ⟨hreach, Or.inl (List.mem_cons_self d rest)⟩
        · intro _
          exact List.mem_cons_self d _
      · rw [List.mem_cons, or_iff_right hdc, ihmem d]
        have hNv : d ∈ newCells img0.width img0.height visited c → d ∉ visited :=
          fun hmem => ((mem_newCells _ _ _ _ _).mp hmem).2.2
        refine and_congr_right fun _ => ?_
        constructor
        · rintro (hmem | hmem)
          · rcases List.mem_append.mp hmem with hmem | hmem
            · exact Or.inl (List.mem_cons_of_mem _ hmem)
            · exact Or.inr (hNv hmem)
          · exact Or.inr fun hv => hmem (Finset.mem_union_left _ hv)
        · rintro (hmem | hmem)
          · rcases List.mem_cons.mp hmem with hmem | hmem
            · exact absurd hmem hdc
            · exact Or.inl (List.mem_append.mpr (Or.inl hmem))
          · by_cases hdn : d ∈ newCells img0.width img0.height visited c
            · exact Or.inl (List.mem_append.mpr (Or.inr hdn))
            · refine Or.inr ?_
              intro hv
              rcases Finset.mem_union.mp hv with hv | hv
              · exact hmem hv
              · exact hdn (List.mem_toFinset.mp hv)
  | case3 img visited c rest hm ih =>
    intro inv
    obtain ⟨hc0, inv'⟩ :=
      floodInv_step_skip img0 t f seed img c rest visited inv hm
    obtain ⟨ihpix, ihw, ihh, ihnodup, ihmem⟩ := ih inv'
    have hcv : c ∈ visited := inv.qsub c (List.mem_cons_self c rest)
    rw [floodLoop]
    simp only [hm, if_false]
    refine ⟨ihpix, ihw, ihh, ihnodup, ?_⟩
    intro d
    rw [ihmem d]
    by_cases hdc : d = c
    · subst hdc
      constructor
      · rintro ⟨hr, -⟩
        exact absurd (Reach.pix_eq img0 t seed d hseed hr) hc0
      · rintro ⟨hr, -⟩
        exact absurd (Reach.pix_eq img0 t seed d hseed hr) hc0
    · refine and_congr_right fun _ => or_congr_left ?_
      constructor
      · exact fun hmem => List.mem_cons_of_mem _ hmem
      · intro hmem
        rcases List.mem_cons.mp hmem with hmem | hmem
        · exact absurd hmem hdc
        · exact hmem

/-- The state `_flood_fill` starts from satisfies the invariant. -/
theorem floodInv_init (img0 : Image) (f : RGBA) (seed : Cell)
    (hs : img0.InBounds seed) :
    FloodInv img0 (img0.pix seed) f seed img0 [seed] {seed} := by
  constructor
  · exact List.nodup_singleton seed
  · intro c hc
    rw [List.mem_singleton] at hc
    subst hc
    exact Finset.mem_singleton_self c
  · intro c hc
    rw [Finset.mem_singleton] at hc
    subst hc
    exact hs
  · intro c hc _
    rw [Finset.mem_singleton] at hc
    subst hc
    exact Relation.ReflTransGen.refl
  · intro c
    rw [if_neg]
    rintro ⟨h1, h2, -⟩
    rw [Finset.mem_singleton] at h1
    subst h1
    exact h2 (List.mem_singleton_self c)
  · intro c hc hcq _
    rw [Finset.mem_singleton] at hc
    subst hc
    exact absurd (List.mem_singleton_self c) hcq
  · exact Finset.mem_singleton_self seed
  · exact ⟨rfl, rfl⟩

/-- C2: for every buffer and every in-bounds seed, flood fill terminates
(the function below is total), sets exactly the 4-connected component of
cells whose original RGBA value equals the seed's original value to the
fill colour, leaves every other pixel (and the dimensions) unchanged, and
its write trace visits each connected colour-matching cell exactly once
(the trace is duplicate-free and contains precisely the component). -/
theorem flood_fill_correct (img0 : Image) (seed : Cell) (f : RGBA)
    (hs : img0.InBounds seed) :
    ((floodFill img0 seed f).width = img0.width
      ∧ (floodFill img0 seed f).height = img0.height)
    ∧ (∀ c, Reach img0 (img0.pix seed) seed c →
        (floodFill img0 seed f).pix c = f)
    ∧ (∀ c, ¬ Reach img0 (img0.pix seed) seed c →
        (floodFill img0 seed f).pix c = img0.pix c)
    ∧ (floodVisits img0 seed f).Nodup
    ∧ (∀ c, c ∈ floodVisits img0 seed f ↔ Reach img0 (img0.pix seed) seed c) := by
  obtain ⟨hpix, hw, hh, hnodup, hmem⟩ :=
    floodLoop_spec img0 (img0.pix seed) f seed rfl img0 [seed] {seed}
      (floodInv_init img0 f seed hs)
  refine ⟨⟨hw, hh⟩, fun c hc => (hpix c).1 hc, fun c hc => (hpix c).2 hc,
    hnodup, ?_⟩
  intro c
  rw [floodVisits, hmem c]
  constructor
  · exact fun hc => hc.1
  · intro hc
    refine ⟨hc, ?_⟩
    by_cases hcs : c = seed
    · exact Or.inl (by rw [hcs]; exact List.mem_singleton_self seed)
    · exact Or.inr (fun hmem => hcs (Finset.mem_singleton.mp hmem))

/-- Undo-stack capacity (`MAX_UNDO = 50` in the source). -/
def MAX_UNDO : ℕ := 50

/-- The mutable state of the `Canvas` widget that the verified tools touch:
the live pixel buffer, the two history stacks, and the two active colours.
Python list `append`/`pop()`/`pop(0)` become append-at-end, drop-last and
drop-first on Lean lists. -/
structure CanvasState where
  pixmap : Image
  undoStack : List Image
  redoStack : List Image
  fg : RGBA
  bg : RGBA

/-- `Canvas.save_undo`: append a copy of the buffer to the undo stack, drop
the oldest entry if the capacity is exceeded, clear the redo stack. -/
def saveUndo (s : CanvasState) : CanvasState :=
  { s with
    undoStack :=
      if (s.undoStack ++ [s.pixmap]).length > MAX_UNDO
      then (s.undoStack ++ [s.pixmap]).drop 1
      else s.undoStack ++ [s.pixmap],
    redoStack := [] }

/-- `Canvas.undo`: no-op when the undo stack is empty; otherwise push the
live buffer onto the redo stack and pop the undo stack into the buffer. -/
def undo (s : CanvasState) : CanvasState :=
  match s.undoStack.getLast? with
  | none => s
  | some prev =>
    { s with
        pixmap := prev
        undoStack := s.undoStack.dropLast
        redoStack := s.redoStack ++ [s.pixmap] }

/-- `Canvas.redo`: symmetric inverse of `undo`. -/
def redo (s : CanvasState) : CanvasState :=
  match s.redoStack.getLast? with
  | none => s
  | some nxt =>
    { s with
        pixmap := nxt
        redoStack := s.redoStack.dropLast
        undoStack := s.undoStack ++ [s.pixmap] }

/-- `FillTool.mouse_press`: out-of-bounds seeds are ignored; a fill whose
colour already equals the seed pixel is skipped before any undo snapshot;
otherwise one snapshot is recorded and the flood fill runs. -/
def fillMousePress (s : CanvasState) (pos : Cell) (leftButton : Bool) :
    CanvasState :=
  if ¬ s.pixmap.InBounds pos then s
  else
    if s.pixmap.pix pos = (if leftButton then s.fg else s.bg) then s
    else
      { saveUndo s with
        pixmap := floodFill s.pixmap pos (if leftButton then s.fg else s.bg) }

/-- `AlphaBrushTool._alpha_flood_fill`: bounds and already-transparent
guards, then the shared BFS loop with a fully transparent fill colour. -/
def alphaFloodFill (img : Image) (pos : Cell) : Image :=
  if pos.1 < 0 ∨ pos.1 ≥ img.width ∨ pos.2 < 0 ∨ pos.2 ≥ img.height then img
  else if (img.pix pos).a = 0 then img
  else (floodLoop img.width img.height (img.pix pos) RGBA.clear
    img [pos] {pos}).1

/-- `PickerTool.mouse_press`: read the pixel under the cursor into the
foreground (left button) or background (other button) colour; out-of-bounds
positions are ignored. -/
def pickerMousePress (s : CanvasState) (pos : Cell) (leftButton : Bool) :
    CanvasState :=
  if s.pixmap.InBounds pos then
    if leftButton then { s with fg := s.pixmap.pix pos }
    else { s with bg := s.pixmap.pix pos }
  else s

/-- Integer rectangle `(x, y, w, h)`, the `QRect` of the selection. -/
structure RectI where
  x : ℤ
  y : ℤ
  w : ℤ
  h : ℤ
deriving DecidableEq, Repr

/-- Pixel footprint of a rectangle: `[x, x + w) × [y, y + h)`. -/
def RectI.contains (r : RectI) (c : Cell) : Prop :=
  r.x ≤ c.1 ∧ c.1 < r.x + r.w ∧ r.y ≤ c.2 ∧ c.2 < r.y + r.h

instance (r : RectI) (c : Cell) : Decidable (r.contains c) := by
  unfold RectI.contains; exact inferInstance

/-- One axis of `QRect(p1, p2).normalized()`: `QRect` stores
`right = left + width - 1`, and `normalized` swaps the two edges only when
the width is strictly negative, so a drag from `a` to `b` has extent
`b - a + 1` when `b ≥ a - 1` and `a - b + 1` otherwise. -/
def normSide (a b : ℤ) : ℤ × ℤ :=
  if b < a - 1 then (b, a - b + 1) else (a, b - a + 1)

/-- `QRect(start, pos).normalized()` for a selection drag. -/
def normRect (a b : Cell) : RectI :=
  { x := (normSide a.1 b.1).1, y := (normSide a.2 b.2).1,
    w := (normSide a.1 b.1).2, h := (normSide a.2 b.2).2 }

/-- Porter-Duff source-over on premultiplied byte values, `QPainter`'s
default composition mode (used by `fillRect` when the selection clears its
source region to the background colour).  No claim depends on the blend
arithmetic: the commit path overwrites with `CompositionMode_Source`. -/
def srcOver (s d : RGBA) : RGBA :=
  { r := s.r + d.r * (255 - s.a) / 255,
    g := s.g + d.g * (255 - s.a) / 255,
    b := s.b + d.b * (255 - s.a) / 255,
    a := s.a + d.a * (255 - s.a) / 255 }

/-- `QPainter.fillRect(rect, color)` with the default source-over mode,
clipped to the device. -/
def fillRectOver (img : Image) (r : RectI) (color : RGBA) : Image :=
  { img with pix := fun c =>
      if r.contains c ∧ img.InBounds c then srcOver color (img.pix c)
      else img.pix c }

/-- `QPixmap.copy(rect)`: detach the rectangle as a new image; areas of the
rectangle outside the source pixmap read as transparent. -/
def copyRect (img : Image) (r : RectI) : Image :=
  { width := r.w, height := r.h,
    pix := fun c =>
      if InB r.w r.h c ∧ img.InBounds (r.x + c.1, r.y + c.2)
      then img.pix (r.x + c.1, r.y + c.2) else RGBA.clear }

/-- `drawPixmap(point, src)` under `CompositionMode_Source`: overwrite the
destination pixels covered by the source, clipped to the destination. -/
def drawImageSource (dest : Image) (p : Cell) (src : Image) : Image :=
  { dest with pix := fun c =>
      if dest.InBounds c ∧ src.InBounds (c.1 - p.1, c.2 - p.2)
      then src.pix (c.1 - p.1, c.2 - p.2) else dest.pix c }

/-- `SelectionTool._snap_alpha`: per pixel, a zero alpha byte zeroes the
colour bytes as well, any non-zero alpha byte is forced to 255. -/
def snapAlpha (img : Image) : Image :=
  { img with pix := fun c =>
      if (img.pix c).a = 0 then RGBA.clear
      else { img.pix c with a := 255 } }

/-- `SelectionTool.mouse_release` from state `selecting`: normalize the
dragged rectangle; when both extents exceed 1, detach the enclosed region
as the snippet and clear the source region to the background colour
(entering `selected`, here `some snippet`); otherwise discard the gesture
(`_reset`, here `none`), leaving the buffer untouched. -/
def selReleaseSelecting (s : CanvasState) (start pos : Cell) :
    CanvasState × Option (Image × RectI) :=
  if (normRect start pos).w > 1 ∧ (normRect start pos).h > 1 then
    ({ s with pixmap := fillRectOver s.pixmap (normRect start pos) s.bg },
      some (copyRect s.pixmap (normRect start pos), normRect start pos))
  else (s, none)

/-- A fresh selection gesture from an idle tool: `mouse_press` commits
nothing (no floating snippet exists), records one undo snapshot and enters
`selecting`; `mouse_release` then finalizes or discards the drag. -/
def selectionClickDrag (s : CanvasState) (start pos : Cell) :
    CanvasState × Option (Image × RectI) :=
  selReleaseSelecting (saveUndo s) start pos

/-- Shared tail of the zero-rotation commit: optional expansion (filled
with the background colour, old content redrawn at the origin), then the
`CompositionMode_Source` stamp at the rectangle's top-left. -/
def commitStamp (buf : Image) (r : RectI) (bg : RGBA) (scaled : Image) :
    Image :=
  if r.x + max r.w 1 > buf.width ∨ r.y + max r.h 1 > buf.height then
    drawImageSource
      (drawImageSource
        { width := max buf.width (r.x + max r.w 1)
          height := max buf.height (r.y + max r.h 1)
          pix := fun _ => bg }
        (0, 0) buf)
      (r.x, r.y) scaled
  else
    drawImageSource buf (r.x, r.y) scaled

/-- Zero-rotation branch of `SelectionTool._commit`: the snippet is stamped
as-is when the rectangle size is unchanged, otherwise it is resampled
(`resample` stands for Qt's smooth scaler `QPixmap.scaled`, an external
collaborator) and alpha-snapped first. -/
def commitUnrotated (resample : Image → ℤ → ℤ → Image)
    (buf snippet : Image) (r : RectI) (bg : RGBA) : Image :=
  if snippet.width = max r.w 1 ∧ snippet.height = max r.h 1 then
    commitStamp buf r bg snippet
  else
    commitStamp buf r bg (snapAlpha (resample snippet (max r.w 1) (max r.h 1)))

/-- Point set of the rotated-rectangle clip polygon that `_commit` builds
from the rectangle's corners `(±w/2, ±h/2)` rotated by the current angle
about the rectangle's centre: assuming `cosA² + sinA² = 1`, a point lies in
that polygon iff its inverse-rotated local coordinates lie within the
half-extents.  Pixel `(x, y)` is tested at its centre `(x + 1/2, y + 1/2)`. -/
def inClipPoly (r : RectI) (cosA sinA : ℚ) (c : Cell) : Prop :=
  |(((c.1 : ℚ) + 1 / 2) - ((r.x : ℚ) + (r.w : ℚ) / 2)) * cosA
      + (((c.2 : ℚ) + 1 / 2) - ((r.y : ℚ) + (r.h : ℚ) / 2)) * sinA|
    ≤ (max r.w 1 : ℤ) / (2 : ℚ)
  ∧ |-((((c.1 : ℚ) + 1 / 2) - ((r.x : ℚ) + (r.w : ℚ) / 2))) * sinA
      + (((c.2 : ℚ) + 1 / 2) - ((r.y : ℚ) + (r.h : ℚ) / 2)) * cosA|
    ≤ (max r.h 1 : ℤ) / (2 : ℚ)

instance (r : RectI) (cosA sinA : ℚ) (c : Cell) :
    Decidable (inClipPoly r cosA sinA c) := by
  unfold inClipPoly; exact inferInstance

/-- Rotated branch of `SelectionTool._commit`: `render` stands for the
output of `_render_rotated` (Qt's supersampled affine resampler, an
external collaborator).  The code alpha-snaps it, positions it so its
centre sits on the rectangle's centre, expands the buffer (background
fill, old content redrawn at the origin) when the destination exceeds the
current bounds, and composites with `CompositionMode_Source` clipped to
the rotated-rectangle polygon. -/
def commitRotated (buf : Image) (r : RectI) (cosA sinA : ℚ)
    (render : Image) (bg : RGBA) : Image :=
  { width :=
      if ⌈((r.x : ℚ) + (r.w : ℚ) / 2 - ((snapAlpha render).width : ℚ) / 2)
            + ((snapAlpha render).width : ℚ)⌉ > buf.width
          ∨ ⌈((r.y : ℚ) + (r.h : ℚ) / 2 - ((snapAlpha render).height : ℚ) / 2)
            + ((snapAlpha render).height : ℚ)⌉ > buf.height
      then max buf.width
        ⌈((r.x : ℚ) + (r.w : ℚ) / 2 - ((snapAlpha render).width : ℚ) / 2)
          + ((snapAlpha render).width : ℚ)⌉
      else buf.width
    height :=
      if ⌈((r.x : ℚ) + (r.w : ℚ) / 2 - ((snapAlpha render).width : ℚ) / 2)
            + ((snapAlpha render).width : ℚ)⌉ > buf.width
          ∨ ⌈((r.y : ℚ) + (r.h : ℚ) / 2 - ((snapAlpha render).height : ℚ) / 2)
            + ((snapAlpha render).height : ℚ)⌉ > buf.height
      then max buf.height
        ⌈((r.y : ℚ) + (r.h : ℚ) / 2 - ((snapAlpha render).height : ℚ) / 2)
          + ((snapAlpha render).height : ℚ)⌉
      else buf.height
    pix := fun c =>
      if inClipPoly r cosA sinA c
          ∧ (snapAlpha render).InBounds
              (⌊(c.1 : ℚ) + 1 / 2
                - ((r.x : ℚ) + (r.w : ℚ) / 2 - ((snapAlpha render).width : ℚ) / 2)⌋,
               ⌊(c.2 : ℚ) + 1 / 2
                - ((r.y : ℚ) + (r.h : ℚ) / 2 - ((snapAlpha render).height : ℚ) / 2)⌋)
      then (snapAlpha render).pix
              (⌊(c.1 : ℚ) + 1 / 2
                - ((r.x : ℚ) + (r.w : ℚ) / 2 - ((snapAlpha render).width : ℚ) / 2)⌋,
               ⌊(c.2 : ℚ) + 1 / 2
                - ((r.y : ℚ) + (r.h : ℚ) / 2 - ((snapAlpha render).height : ℚ) / 2)⌋)
      else if buf.InBounds c then buf.pix c
      else bg }

/-- `SelectionTool._commit`'s dispatch on the rotation angle (the source
tests `abs(self._angle) < 0.01`); `cosA` and `sinA` stand for
`math.cos`/`math.sin` of the angle. -/
def commitSel (angle cosA sinA : ℚ) (resample : Image → ℤ → ℤ → Image)
    (buf snippet : Image) (r : RectI) (render : Image) (bg : RGBA) : Image :=
  if |angle| < 1 / 100 then commitUnrotated resample buf snippet r bg
  else commitRotated buf r cosA sinA render bg

/-- Python `int()`: truncation toward zero. -/
def pyInt (q : ℚ) : ℤ := if 0 ≤ q then ⌊q⌋ else -⌊-q⌋

theorem pyInt_intCast (n : ℤ) : pyInt (n : ℚ) = n := by
  unfold pyInt
  split
  · exact Int.floor_intCast n
  · rw [← Int.cast_neg, Int.floor_intCast]
    omega

/-- The eight resize handles of the selection. -/
inductive Handle where
  | nw | n | ne | e | se | s | sw | w
deriving DecidableEq, Repr

/-- Membership in `SelectionTool._CHANGES_X`. -/
def Handle.changesX : Handle → Bool
  | .nw | .ne | .sw | .se | .e | .w => true
  | _ => false

/-- Membership in `SelectionTool._CHANGES_Y`. -/
def Handle.changesY : Handle → Bool
  | .nw | .ne | .sw | .se | .n | .s => true
  | _ => false

/-- `SelectionTool._do_resize`: project the anchor-to-pointer vector onto
the rectangle's rotated local axes, floor the affected extents at 4, keep
the unaffected extents at their drag-start values, and place the new centre
half the local delta away from the anchor. -/
def doResize (cosA sinA : ℚ) (anchor mouse : ℚ × ℚ) (handle : Handle)
    (origW origH : ℚ) : RectI :=
  { x := pyInt
      (anchor.1
        + (if handle.changesX
            then ((mouse.1 - anchor.1) * cosA + (mouse.2 - anchor.2) * sinA) / 2
            else 0) * cosA
        - (if handle.changesY
            then (-(mouse.1 - anchor.1) * sinA + (mouse.2 - anchor.2) * cosA) / 2
            else 0) * sinA
        - (if handle.changesX
            then max |(mouse.1 - anchor.1) * cosA + (mouse.2 - anchor.2) * sinA| 4
            else origW) / 2)
    y := pyInt
      (anchor.2
        + (if handle.changesX
            then ((mouse.1 - anchor.1) * cosA + (mouse.2 - anchor.2) * sinA) / 2
            else 0) * sinA
        + (if handle.changesY
            then (-(mouse.1 - anchor.1) * sinA + (mouse.2 - anchor.2) * cosA) / 2
            else 0) * cosA
        - (if handle.changesY
            then max |-(mouse.1 - anchor.1) * sinA + (mouse.2 - anchor.2) * cosA| 4
            else origH) / 2)
    w := pyInt
      (if handle.changesX
        then max |(mouse.1 - anchor.1) * cosA + (mouse.2 - anchor.2) * sinA| 4
        else origW)
    h := pyInt
      (if handle.changesY
        then max |-(mouse.1 - anchor.1) * sinA + (mouse.2 - anchor.2) * cosA| 4
        else origH) }

/-- Sample pixel used by the concrete witness states. -/
def pixA : RGBA := ⟨1, 2, 3, 255⟩

/-- Tiny 2×1 image whose two cells both hold `pixA`. -/
def imgA : Image :=
  ⟨2, 1, fun c => if c = (0, 0) ∨ c = (1, 0) then pixA else RGBA.clear⟩

/-- Second tiny image, used as a distinguishable undo snapshot. -/
def imgB : Image := ⟨2, 1, fun _ => RGBA.clear⟩

/-- After `save_undo` the newest undo entry is the pre-call buffer. -/
theorem saveUndo_getLast (s : CanvasState) :
    (saveUndo s).undoStack.getLast? = some s.pixmap := by
  unfold saveUndo
  dsimp only
  split
  · next hgt =>
    have hlen : 1 ≤ s.undoStack.length := by
      simp only [List.length_append, List.length_cons, List.length_nil,
        MAX_UNDO] at hgt
      omega
    rw [List.drop_append_of_le_length hlen, List.getLast?_concat]
  · exact List.getLast?_concat _

/-- C4: undo followed by redo restores the exact pre-undo buffer, and undo
on an empty undo stack is a no-op on the whole canvas state. -/
theorem undo_redo_spec (s : CanvasState) :
    (s.undoStack ≠ [] → (redo (undo s)).pixmap = s.pixmap)
    ∧ (s.undoStack = [] → undo s = s) := by
  constructor
  · intro hne
    have hlast : s.undoStack.getLast? = some (s.undoStack.getLast hne) :=
      List.getLast?_eq_getLast s.undoStack hne
    rw [undo, hlast]
    rw [redo]
    dsimp only
    rw [List.getLast?_concat]
  · intro he
    rw [undo, he]
    rfl

/-- C4 witness: a concrete state with one undo snapshot. -/
theorem undo_redo_spec_witness :
    (redo (undo (CanvasState.mk imgA [imgB] [] pixA RGBA.clear))).pixmap
      = (CanvasState.mk imgA [imgB] [] pixA RGBA.clear).pixmap :=
  (undo_redo_spec (CanvasState.mk imgA [imgB] [] pixA RGBA.clear)).1
    (List.cons_ne_nil imgB [])

/-- C5: `save_undo` appends the current buffer, keeps the stack depth within
`MAX_UNDO` (evicting the oldest entry when the capacity would be exceeded)
and empties the redo stack. -/
theorem save_undo_spec (s : CanvasState)
    (hlen : s.undoStack.length ≤ MAX_UNDO) :
    (saveUndo s).undoStack.length ≤ MAX_UNDO
    ∧ (saveUndo s).redoStack = []
    ∧ (saveUndo s).undoStack.getLast? = some s.pixmap
    ∧ (s.undoStack.length < MAX_UNDO →
        (saveUndo s).undoStack = s.undoStack ++ [s.pixmap])
    ∧ (s.undoStack.length = MAX_UNDO →
        (saveUndo s).undoStack = s.undoStack.drop 1 ++ [s.pixmap]) := by
  refine ⟨?_, rfl, saveUndo_getLast s, ?_, ?_⟩
  · unfold saveUndo
    dsimp only
    split
    · next hgt =>
      simp only [List.length_drop, List.length_append, List.length_cons,
        List.length_nil, MAX_UNDO] at *
      omega
    · next hgt =>
      simp only [List.length_append, List.length_cons, List.length_nil,
        MAX_UNDO] at *
      omega
  · intro hlt
    unfold saveUndo
    dsimp only
    rw [if_neg]
    simp only [List.length_append, List.length_cons, List.length_nil]
    unfold MAX_UNDO at *
    omega
  · intro heq
    have h1 : 1 ≤ s.undoStack.length := by
      unfold MAX_UNDO at heq
      omega
    unfold saveUndo
    dsimp only
    rw [if_pos]
    · rw [List.drop_append_of_le_length h1]
    · simp only [List.length_append, List.length_cons, List.length_nil]
      unfold MAX_UNDO at *
      omega

/-- C5 witness: a concrete state below capacity. -/
theorem save_undo_spec_witness :
    (saveUndo (CanvasState.mk imgA [imgB] [imgB] pixA RGBA.clear)).undoStack.length
        ≤ MAX_UNDO
      ∧ (saveUndo (CanvasState.mk imgA [imgB] [imgB] pixA RGBA.clear)).redoStack
        = [] :=
  ⟨(save_undo_spec (CanvasState.mk imgA [imgB] [imgB] pixA RGBA.clear)
      (by decide)).1,
   (save_undo_spec (CanvasState.mk imgA [imgB] [imgB] pixA RGBA.clear)
      (by decide)).2.1⟩

/-- C3: alpha snapping preserves the dimensions; a pixel with zero alpha
becomes fully transparent black, any other pixel keeps its colour channels
and gets alpha exactly 255 — so every output pixel (in particular every
pixel of the alpha-snapped render a rotated commit composites) has binary
alpha. -/
theorem snap_alpha_spec (img : Image) (c : Cell) :
    (snapAlpha img).width = img.width
    ∧ (snapAlpha img).height = img.height
    ∧ ((snapAlpha img).pix c
        = if (img.pix c).a = 0 then RGBA.clear
          else { img.pix c with a := 255 })
    ∧ (((snapAlpha img).pix c).a = 0 ∨ ((snapAlpha img).pix c).a = 255) := by
  refine ⟨rfl, rfl, rfl, ?_⟩
  unfold snapAlpha
  dsimp only
  split
  · exact Or.inl rfl
  · exact Or.inr rfl

/-- C8: if the pixel under the cursor already has the fill colour, the fill
tool returns without touching the canvas state — no pixel change, no undo
snapshot, no redo clearing. -/
theorem fill_noop_spec (s : CanvasState) (pos : Cell) (left : Bool)
    (h : s.pixmap.pix pos = (if left then s.fg else s.bg)) :
    fillMousePress s pos left = s := by
  unfold fillMousePress
  by_cases hb : ¬ s.pixmap.InBounds pos
  · rw [if_pos hb]
  · rw [if_neg hb, if_pos h]

/-- C8 witness: filling the foreground colour onto a pixel that already has
it leaves the state unchanged. -/
theorem fill_noop_spec_witness :
    fillMousePress (CanvasState.mk imgA [] [] pixA RGBA.clear) (0, 0) true
      = CanvasState.mk imgA [] [] pixA RGBA.clear :=
  fill_noop_spec (CanvasState.mk imgA [] [] pixA RGBA.clear) (0, 0) true
    (by decide)

/-- C9: for a seed strictly outside the buffer, the standard flood fill and
the alpha flood fill leave the buffer unchanged, and the colour picker
leaves the whole state (including both active colours) unchanged; none of
them fails. -/
theorem out_of_bounds_noop_spec (s : CanvasState) (pos : Cell) (left : Bool)
    (h : ¬ s.pixmap.InBounds pos) :
    fillMousePress s pos left = s
    ∧ alphaFloodFill s.pixmap pos = s.pixmap
    ∧ pickerMousePress s pos left = s := by
  refine ⟨?_, ?_, ?_⟩
  · unfold fillMousePress
    rw [if_pos h]
  · unfold alphaFloodFill
    rw [if_pos]
    unfold Image.InBounds InB at h
    omega
  · unfold pickerMousePress
    rw [if_neg h]

/-- C9 witness: a concrete off-canvas click. -/
theorem out_of_bounds_noop_spec_witness :
    fillMousePress (CanvasState.mk imgA [] [] pixA RGBA.clear) (5, 5) true
        = CanvasState.mk imgA [] [] pixA RGBA.clear
      ∧ alphaFloodFill imgA (5, 5) = imgA :=
  ⟨(out_of_bounds_noop_spec (CanvasState.mk imgA [] [] pixA RGBA.clear) (5, 5)
      true (by decide)).1,
   (out_of_bounds_noop_spec (CanvasState.mk imgA [] [] pixA RGBA.clear) (5, 5)
      true (by decide)).2.1⟩

/-- C10: a selection drag released with a degenerate rectangle (either
extent ≤ 1) changes no pixel and produces no floating selection, yet it has
already pushed one full-buffer undo snapshot at press time and cleared the
redo stack. -/
theorem degenerate_selection_spec (s : CanvasState) (start pos : Cell)
    (hdeg : (normRect start pos).w ≤ 1 ∨ (normRect start pos).h ≤ 1) :
    (selectionClickDrag s start pos).1.pixmap = s.pixmap
    ∧ (selectionClickDrag s start pos).2 = none
    ∧ (selectionClickDrag s start pos).1.redoStack = []
    ∧ (selectionClickDrag s start pos).1.undoStack = (saveUndo s).undoStack
    ∧ (selectionClickDrag s start pos).1.undoStack.getLast? = some s.pixmap := by
  have hcond : ¬ ((normRect start pos).w > 1 ∧ (normRect start pos).h > 1) := by
    omega
  unfold selectionClickDrag selReleaseSelecting
  rw [if_neg hcond]
  exact ⟨rfl, rfl, rfl, rfl, saveUndo_getLast s⟩

/-- C10 witness: a click without a drag (1×1 rectangle). -/
theorem degenerate_selection_spec_witness :
    (selectionClickDrag (CanvasState.mk imgA [] [imgB] pixA RGBA.clear)
        (0, 0) (0, 0)).1.pixmap = imgA
      ∧ (selectionClickDrag (CanvasState.mk imgA [] [imgB] pixA RGBA.clear)
        (0, 0) (0, 0)).1.redoStack = [] :=
  ⟨(degenerate_selection_spec (CanvasState.mk imgA [] [imgB] pixA RGBA.clear)
      (0, 0) (0, 0) (by decide)).1,
   (degenerate_selection_spec (CanvasState.mk imgA [] [imgB] pixA RGBA.clear)
      (0, 0) (0, 0) (by decide)).2.2.1⟩

/-- C2 witness: filling a 2×1 uniform image from its left cell recolours
the right cell, which is one 4-connected step away. -/
theorem flood_fill_correct_witness :
    imgA.InBounds (0, 0)
      ∧ (floodFill imgA (0, 0) ⟨9, 9, 9, 255⟩).pix (1, 0) = ⟨9, 9, 9, 255⟩ :=
  ⟨by decide,
   (flood_fill_correct imgA (0, 0) ⟨9, 9, 9, 255⟩ (by decide)).2.1 (1, 0)
     (Relation.ReflTransGen.single
       ⟨by decide, rfl, by decide, by decide, by decide⟩)⟩

/-- Larger uniform 20×20 image for the rotated-commit witness. -/
def imgC : Image := ⟨20, 20, fun _ => pixA⟩

/-- C7: when the commit takes the rotated branch (angle not approximately
zero), every pixel outside the exact rotated-rectangle clip polygon is
unaffected by the compositing step — pixels inside the original buffer keep
their old value, and pixels only present in the expanded buffer hold the
background colour — even though the rendered bounding-box image may overlap
them. -/
theorem rotated_commit_outside_clip (angle cosA sinA : ℚ)
    (resample : Image → ℤ → ℤ → Image) (buf snippet render : Image)
    (r : RectI) (bg : RGBA) (c : Cell)
    (hang : ¬ |angle| < 1 / 100) (hout : ¬ inClipPoly r cosA sinA c) :
    (buf.InBounds c →
      (commitSel angle cosA sinA resample buf snippet r render bg).pix c
        = buf.pix c)
    ∧ (¬ buf.InBounds c →
      (commitSel angle cosA sinA resample buf snippet r render bg).pix c
        = bg) := by
  unfold commitSel
  rw [if_neg hang]
  unfold commitRotated
  dsimp only
  rw [if_neg (fun hcond => hout hcond.1)]
  constructor
  · intro hb
    rw [if_pos hb]
  · intro hb
    rw [if_neg hb]

/-- C7 witness: a 45-degree commit of a 2×2 selection leaves a far-away
in-bounds pixel untouched. -/
theorem rotated_commit_outside_clip_witness :
    (¬ |(45 : ℚ)| < 1 / 100)
      ∧ (¬ inClipPoly ⟨0, 0, 2, 2⟩ 1 0 (10, 10))
      ∧ (commitSel 45 1 0 (fun i _ _ => i) imgC imgC ⟨0, 0, 2, 2⟩ imgC
          pixA).pix (10, 10) = imgC.pix (10, 10) :=
  ⟨by norm_num, by norm_num [inClipPoly, abs_le],
   (rotated_commit_outside_clip 45 1 0 (fun i _ _ => i) imgC imgC imgC
     ⟨0, 0, 2, 2⟩ pixA (10, 10) (by norm_num)
     (by norm_num [inClipPoly, abs_le])).1 (by decide)⟩

/-- C1: selecting a rectangle wholly inside the buffer (which detaches the
snippet and clears the source region to the background colour) and then
committing with angle 0 and unchanged size restores, bit for bit, the
original content on the rectangle's footprint. -/
theorem select_commit_roundtrip (resample : Image → ℤ → ℤ → Image)
    (img render : Image) (r : RectI) (bg : RGBA)
    (hx : 0 ≤ r.x) (hy : 0 ≤ r.y) (hw : 1 < r.w) (hh : 1 < r.h)
    (hxw : r.x + r.w ≤ img.width) (hyh : r.y + r.h ≤ img.height)
    (c : Cell) (hc : r.contains c) :
    (commitSel 0 1 0 resample (fillRectOver img r bg) (copyRect img r) r
        render bg).pix c = img.pix c := by
  obtain ⟨cx, cy⟩ := c
  obtain ⟨hc1, hc2, hc3, hc4⟩ := hc
  rw [commitSel, if_pos (by norm_num)]
  rw [commitUnrotated,
    if_pos ⟨show r.w = max r.w 1 by omega, show r.h = max r.h 1 by omega⟩]
  have hcond : ¬ (r.x + max r.w 1 > (fillRectOver img r bg).width
      ∨ r.y + max r.h 1 > (fillRectOver img r bg).height) := by
    have h1 : (fillRectOver img r bg).width = img.width := rfl
    have h2 : (fillRectOver img r bg).height = img.height := rfl
    rw [h1, h2]
    omega
  rw [commitStamp, if_neg hcond]
  have hdest : (fillRectOver img r bg).InBounds (cx, cy) := by
    show InB img.width img.height (cx, cy)
    unfold InB
    dsimp only
    omega
  have hsrc : (copyRect img r).InBounds (cx - r.x, cy - r.y) := by
    show InB r.w r.h (cx - r.x, cy - r.y)
    unfold InB
    dsimp only
    omega
  rw [drawImageSource]
  dsimp only
  rw [if_pos ⟨hdest, hsrc⟩]
  have e1 : r.x + (cx - r.x) = cx := by ring
  have e2 : r.y + (cy - r.y) = cy := by ring
  have hin : img.InBounds (r.x + (cx - r.x), r.y + (cy - r.y)) := by
    rw [e1, e2]
    unfold Image.InBounds InB
    dsimp only
    omega
  rw [copyRect]
  dsimp only
  rw [if_pos ⟨show InB r.w r.h (cx - r.x, cy - r.y) from hsrc, hin⟩]
  rw [e1, e2]

/-- C1 witness: a 2×2 selection at the origin of the 20×20 uniform image. -/
theorem select_commit_roundtrip_witness :
    (commitSel 0 1 0 (fun i _ _ => i) (fillRectOver imgC ⟨0, 0, 2, 2⟩ RGBA.clear)
        (copyRect imgC ⟨0, 0, 2, 2⟩) ⟨0, 0, 2, 2⟩ imgC RGBA.clear).pix (1, 1)
      = imgC.pix (1, 1) :=
  select_commit_roundtrip (fun i _ _ => i) imgC imgC ⟨0, 0, 2, 2⟩ RGBA.clear
    (by decide) (by decide) (by decide) (by decide) (by decide) (by decide)
    (1, 1) (by decide)

theorem changesX_e : Handle.e.changesX = true := rfl

theorem changesY_e : Handle.e.changesY = false := rfl

theorem changesX_n : Handle.n.changesX = false := rfl

theorem pyInt_ge_four (q : ℚ) (h4 : 4 ≤ q) : 4 ≤ pyInt q := by
  unfold pyInt
  rw [if_pos (by linarith)]
  exact Int.le_floor.mpr (by exact_mod_cast h4)

/-- C6 (amended): resizing a selection whose rectangle starts at 40×40 with
the east handle (anchor at the west edge midpoint, angle 0) to a local-x
extent of 80 leaves the west edge and the height unchanged and puts the
east edge at west + 80.  In general the 4-pixel floor applies exactly to
the axes the active handle changes; an axis the handle does not change
keeps its drag-start extent (which a fresh selection only guarantees to
exceed 1, not 4). -/
theorem do_resize_spec :
    (∀ (x y : ℤ) (my : ℚ),
        doResize 1 0 ((x : ℚ), (y : ℚ) + 20) ((x : ℚ) + 80, my) Handle.e 40 40
          = ⟨x, y, 80, 40⟩)
    ∧ (∀ (cosA sinA : ℚ) (anchor mouse : ℚ × ℚ) (handle : Handle)
        (origW origH : ℚ),
        (handle.changesX = true →
          4 ≤ (doResize cosA sinA anchor mouse handle origW origH).w)
        ∧ (handle.changesX = false →
          (doResize cosA sinA anchor mouse handle origW origH).w = pyInt origW)
        ∧ (handle.changesY = true →
          4 ≤ (doResize cosA sinA anchor mouse handle origW origH).h)
        ∧ (handle.changesY = false →
          (doResize cosA sinA anchor mouse handle origW origH).h
            = pyInt origH)) := by
  constructor
  · intro x y my
    unfold doResize
    dsimp only
    simp only [changesX_e, changesY_e]
    norm_num
    refine ⟨pyInt_intCast x, pyInt_intCast y, ?_, ?_⟩ <;> norm_num [pyInt]
  · intro cosA sinA anchor mouse handle origW origH
    refine ⟨?_, ?_, ?_, ?_⟩ <;> intro hb <;> unfold doResize <;> dsimp only
      <;> rw [hb]
    · simp only [if_pos rfl]
      exact pyInt_ge_four _ (le_max_right _ _)
    · rw [if_neg (by simp)]
    · simp only [if_pos rfl]
      exact pyInt_ge_four _ (le_max_right _ _)
    · rw [if_neg (by simp)]

/-- C6 witnesses for the amended statement's quantified parts. -/
theorem do_resize_spec_witness :
    doResize 1 0 ((3 : ℚ), (7 : ℚ) + 20) ((3 : ℚ) + 80, 0) Handle.e 40 40
        = ⟨3, 7, 80, 40⟩
      ∧ 4 ≤ (doResize 1 0 (1, 10) (1, 0) Handle.n 2 10).h :=
  ⟨by
    have h := do_resize_spec.1 3 7 0
    norm_num at h ⊢
    exact h,
   (do_resize_spec.2 1 0 (1, 10) (1, 0) Handle.n 2 10).2.2.1 rfl⟩

/-- C6 counterexample: the claim's blanket "width and height are at least
4 after every resize" fails — resizing a 2×10 selection with the north
handle (which changes only the y axis) keeps the drag-start width 2. -/
theorem do_resize_floor_cex :
    (1 : ℤ) < 2 ∧ (1 : ℤ) < 10
      ∧ (doResize 1 0 (1, 10) (1, 0) Handle.n 2 10).w = 2
      ∧ ¬ (4 ≤ (doResize 1 0 (1, 10) (1, 0) Handle.n 2 10).w) := by
  refine ⟨by norm_num, by norm_num, ?_, ?_⟩
  · unfold doResize
    dsimp only
    norm_num [pyInt, changesX_n]
  · unfold doResize
    dsimp only
    norm_num [pyInt, changesX_n]
